import Mathlib

/-!
Shallow embedding of the JSON parser in `src/JSONParser/main.cpp` and proofs
about it.  Inputs are modelled as `List Char` (the parser operates on a
`std::string_view` of bytes); sizes and offsets are `Nat`.
-/

namespace JSONParser

/-- The value model `JSONObject` (main.cpp lines 18-36): a tagged union with
variants `std::monostate` (null), `bool`, `int`, `double`, `std::string`,
`JSONLIST = std::vector<JSONObject>` and
`JSONDICT = std::unordered_map<std::string, JSONObject>`.
The C++ `double` payload is modelled as the exact decimal rational the numeric
lexeme denotes (see `fromCharsDouble`); the `unordered_map` is modelled as an
association list in insertion order (the parser only ever inserts with
`try_emplace` and the claims only observe lookup, for which the two agree). -/
inductive JSON where
  | null
  | bool (b : Bool)
  | int (n : Int)
  | double (q : ℚ)
  | str (s : List Char)
  | list (l : List JSON)
  | map (m : List (List Char × JSON))

/-- The whitespace character class used by the parser.  Two source sites use
it: the leading-whitespace skip `json.find_first_not_of(" \n\r\t\v\f\0")`
(line 71) and the lambda `skip_whitespace` built on `std::isspace` (lines
123-128).  Note that in line 71 the set is passed as a `const char*`, whose
length is computed by `strlen`, so the trailing `\0` written in the literal is
truncated away and NUL is NOT part of the set; the effective set is exactly
the six characters recognized by `std::isspace` in the C locale:
space, `\n`, `\r`, `\t`, `\v` (0x0B), `\f` (0x0C). -/
def isWsChar (c : Char) : Bool :=
  c = ' ' ∨ c = '\n' ∨ c = '\r' ∨ c = '\t' ∨ c = '\x0b' ∨ c = '\x0c'

/-- Length of the maximal run of whitespace characters at the front of `s`.
`find_first_not_of` on line 71 returns this value when it is `< s.length`,
and `npos` when the whole (nonempty) string is whitespace. -/
def wsCount : List Char → Nat
  | [] => 0
  | c :: r => if isWsChar c then wsCount r + 1 else 0

/-- Indexing `json[i]`.  For `i < s.length` this is the character at `i`.
The loops at lines 148, 177 and 192 can evaluate `json[i]` at `i == size`
after `skip_whitespace`; for the NUL-terminated buffers this program feeds
`std::string_view` from, that read yields the terminator `'\0'`, which is
what we return out of range (it differs from `,`, `:`, `]`, `}`, so those
comparisons fail, exactly as in the observed executions). -/
def nthC (s : List Char) (i : Nat) : Char := s.getD i '\x00'

/-- The lambda `skip_whitespace` (lines 123-128): advance `i` while
`i < json.size()` and `json[i]` is whitespace. -/
def skipWs (s : List Char) (i : Nat) : Nat := i + wsCount (s.drop i)

/-- `unescaped_char` (lines 212-233). -/
def unescaped_char (c : Char) : Char :=
  if c = 'n' then '\n'
  else if c = 'r' then '\r'
  else if c = '0' then '\x00'
  else if c = 't' then '\t'
  else if c = 'v' then '\x0b'
  else if c = 'f' then '\x0c'
  else if c = 'b' then '\x08'
  else if c = 'a' then '\x07'
  else c

/-- The two states of the string scanner (line 97: `enum { Raw, Esc }`). -/
inductive Phase where
  | raw
  | esc
deriving DecidableEq

/-- The string-scanning loop (lines 99-118), acting on the characters after
the opening quote.  Returns the accumulated decoded string together with the
number of characters of the tail that were consumed (including the closing
quote when one is found).  The code's loop index `i` starts at 1, so `parse`
returns `1 +` this count. -/
def strScan : Phase → List Char → List Char → List Char × Nat
  | _, [], acc => (acc, 0)
  | .raw, c :: r, acc =>
    if c = '\\' then
      let p := strScan .esc r acc
      (p.1, p.2 + 1)
    else if c = '"' then (acc, 1)
    else
      let p := strScan .raw r (acc ++ [c])
      (p.1, p.2 + 1)
  | .esc, c :: r, acc =>
    let p := strScan .raw r (acc ++ [unescaped_char c])
    (p.1, p.2 + 1)

/-- Whether the scan started in the given phase finds a terminating
unescaped `"` before the input ends (the `break` at line 108). -/
def hasTerm : Phase → List Char → Bool
  | _, [] => false
  | .raw, c :: r =>
    if c = '\\' then hasTerm .esc r
    else if c = '"' then true
    else hasTerm .raw r
  | .esc, _ :: r => hasTerm .raw r

/-- The scanner phase after processing the whole list.  Only meaningful for
inputs on which `hasTerm` is `false` (no early termination). -/
def endPhase : Phase → List Char → Phase
  | ph, [] => ph
  | .raw, c :: r => if c = '\\' then endPhase .esc r else endPhase .raw r
  | .esc, _ :: r => endPhase .raw r

/-! ### The number matcher

Lines 78-92 dispatch on a first byte that is a digit, `+` or `-`, and run
`std::regex_search` with the ECMAScript pattern
`-?(0|[1-9][0-9]*)(\.[0-9]+)?([eE][+-]?[0-9]+)?` over the whole remaining
input.  `regex_search` (unlike `regex_match`) is NOT anchored: it returns the
leftmost position at which the pattern matches.  At a given position the
match is the greedy one: maximal integer part, then the maximal fraction
group if `.` is followed by a digit, then the maximal exponent group if
`e`/`E` (with optional sign) is followed by a digit; since every group after
the integer part is optional and a shorter integer part would have to be
followed by a digit (impossible for `.`/`e`), the greedy match is also the
longest match at that position. -/

def isDigit (c : Char) : Bool := '0' ≤ c ∧ c ≤ '9'

def isNZDigit (c : Char) : Bool := '1' ≤ c ∧ c ≤ '9'

/-- Length of the maximal run of decimal digits at the front. -/
def digCount : List Char → Nat
  | [] => 0
  | c :: r => if isDigit c then digCount r + 1 else 0

/-- Length matched by the mandatory group `(0|[1-9][0-9]*)` at the front,
or `none` when it does not match here. -/
def intPartLen : List Char → Option Nat
  | [] => none
  | c :: r =>
    if c = '0' then some 1
    else if isNZDigit c then some (1 + digCount r)
    else none

/-- Length matched by the optional group `(\.[0-9]+)?` at the front
(0 when the group matches empty). -/
def fracLen : List Char → Nat
  | [] => 0
  | c :: r => if c = '.' then (if digCount r = 0 then 0 else 1 + digCount r) else 0

/-- Length matched by the optional group `([eE][+-]?[0-9]+)?` at the front
(0 when the group matches empty). -/
def expLen : List Char → Nat
  | [] => 0
  | c :: r =>
    if c = 'e' ∨ c = 'E' then
      match r with
      | [] => 0
      | x :: r2 =>
        if x = '+' ∨ x = '-' then
          if digCount r2 = 0 then 0 else 2 + digCount r2
        else if digCount r = 0 then 0 else 1 + digCount r
    else 0

/-- Length of the (greedy, hence longest) match of the numeric pattern
anchored at the front of `s`, or `none` if the pattern does not match here.
The optional leading `-` can only be part of a match when a digit follows. -/
def matchNumAt (s : List Char) : Option Nat :=
  match s with
  | [] => none
  | c :: r =>
    if c = '-' then
      (intPartLen r).map fun i =>
        let rest := r.drop i
        let f := fracLen rest
        let e := expLen (rest.drop f)
        1 + i + f + e
    else
      (intPartLen (c :: r)).map fun i =>
        let rest := (c :: r).drop i
        let f := fracLen rest
        let e := expLen (rest.drop f)
        i + f + e

/-- `std::regex_search`: the leftmost position at which the pattern matches,
together with the length of the match there. -/
def searchNum : List Char → Option (Nat × Nat)
  | [] => none
  | c :: r =>
    match matchNumAt (c :: r) with
    | some n => some (0, n)
    | none => (searchNum r).map fun p => (p.1 + 1, p.2)

/-- Value of a list of decimal digits (most significant first). -/
def digsVal (acc : Nat) : List Char → Nat
  | [] => acc
  | c :: r => digsVal (acc * 10 + (c.toNat - '0'.toNat)) r

/-- `try_parse_num<int>` (lines 203-210): `std::from_chars` into a C++ `int`
(32-bit two's complement), requiring that the whole string is consumed
(`res.ptr == end`) and that the value is in range (otherwise
`errc::result_out_of_range`).  `from_chars` accepts an optional `-` (no `+`)
followed by decimal digits only. -/
def fromCharsInt (s : List Char) : Option Int :=
  match s with
  | [] => none
  | c :: r =>
    if c = '-' then
      if r ≠ [] ∧ r.all isDigit then
        if digsVal 0 r ≤ 2 ^ 31 then some (-(digsVal 0 r : Int)) else none
      else none
    else
      if (c :: r).all isDigit then
        if digsVal 0 (c :: r) ≤ 2 ^ 31 - 1 then some (digsVal 0 (c :: r) : Int)
        else none
      else none

/-- Exact rational value of an unsigned numeric lexeme
`digits [. digits] [eE [sign] digits]`, requiring full consumption. -/
def numVal (s : List Char) : Option ℚ :=
  let d := digCount s
  if d = 0 then none
  else
    let ip : ℚ := digsVal 0 (s.take d)
    let s2 := s.drop d
    let fd := fracLen s2
    let fp : ℚ := if fd = 0 then 0 else (digsVal 0 (s2.take fd |>.drop 1) : ℚ) / 10 ^ (fd - 1)
    let s3 := s2.drop fd
    let el := expLen s3
    let ev : Int :=
      if el = 0 then 0
      else
        match s3 with
        | [] => 0
        | _ :: r =>
          match r with
          | [] => 0
          | x :: r2 =>
            if x = '-' then -(digsVal 0 (r2.take (el - 2)) : Int)
            else if x = '+' then (digsVal 0 (r2.take (el - 2)) : Int)
            else (digsVal 0 ((x :: r2).take (el - 1)) : Int)
    if s3.drop el = [] then some ((ip + fp) * (10 : ℚ) ^ ev) else none

/-- `try_parse_num<double>` (lines 203-210): `std::from_chars` into a
`double`, requiring full consumption.  Abstraction: the resulting `double` is
modelled by the exact decimal rational the lexeme denotes, and the
out-of-range failure (`errc::result_out_of_range`) by cutting off at the
binary64 range boundaries (magnitude `≥ 2^1024` overflows; a nonzero
magnitude `< 2^-1075` underflows to zero).  Rounding of representable values
and the half-ulp behaviour exactly at these two boundaries are not modelled;
no claim under verification depends on them. -/
def fromCharsDouble (s : List Char) : Option ℚ :=
  let q? : Option ℚ :=
    match s with
    | [] => none
    | c :: r => if c = '-' then (numVal r).map Neg.neg else numVal (c :: r)
  match q? with
  | none => none
  | some q =>
    if q = 0 then some 0
    else if |q| < (2 : ℚ) ^ (1024 : ℕ) ∧ ((2 : ℚ) ^ (1075 : ℕ))⁻¹ ≤ |q| then some q
    else none

/-- Lookup in the association-list model of `JSONDICT`
(`std::unordered_map<std::string, JSONObject>`). -/
def lookupKey (m : List (List Char × JSON)) (k : List Char) : Option JSON :=
  match m with
  | [] => none
  | kv :: r => if kv.1 = k then some kv.2 else lookupKey r k

/-- `res.try_emplace(key, value)` (line 189): insert only if the key is not
already present; an existing entry is never overwritten. -/
def tryEmplace (m : List (List Char × JSON)) (k : List Char) (v : JSON) :
    List (List Char × JSON) :=
  if (lookupKey m k).isSome then m else m ++ [(k, v)]

/-- The number branch (lines 78-92), entered when the first byte is a digit,
`+` or `-`: run the regex search over the whole remainder; on a match, take
the matched lexeme `str`, try `int`, then `double`; the consumed count is
`str.size()` — the length of the lexeme, regardless of where in the
remainder the lexeme begins.  `none` means the branch falls through. -/
def numBranch (s : List Char) : Option (JSON × Nat) :=
  match searchNum s with
  | none => none
  | some pn =>
    let str := (s.drop pn.1).take pn.2
    match fromCharsInt str with
    | some v => some (.int v, str.length)
    | none =>
      match fromCharsDouble str with
      | some q => some (.double q, str.length)
      | none => none

mutual
/-- The recursive entry point `parse` (lines 64-201), with an explicit fuel
parameter to make the recursion structural; `fuel` strictly exceeds the
recursion depth for every input fed through `parse` below, and every theorem
quantifying over `fuel` holds for all of it.  Structure, in source order:
empty input; leading-whitespace skip (recursing on the remainder and adding
the offset back); number branch (falling through when the regex does not
match or both conversions fail); string branch; list branch; dict branch;
final `(Null, 0)`. -/
def parseF : Nat → List Char → JSON × Nat
  | 0, _ => (.null, 0)
  | fuel + 1, s =>
    match s with
    | [] => (.null, 0)
    | c :: _ =>
      let cnt := wsCount s
      if 0 < cnt ∧ cnt < s.length then
        let r := parseF fuel (s.drop cnt)
        (r.1, r.2 + cnt)
      else
        let numRes := if isDigit c ∨ c = '+' ∨ c = '-' then numBranch s else none
        numRes.getD
          (if c = '"' then
            let p := strScan .raw s.tail []
            (.str p.1, 1 + p.2)
          else if c = '[' then
            let p := listLoopF fuel s 1 []
            (.list p.1, p.2)
          else if c = '{' then
            let p := dictLoopF fuel s 1 []
            (.map p.1, p.2)
          else (.null, 0))

/-- The list-parsing loop (lines 131-153): starting at index 1, stop past a
`]`; parse an element from the remainder, fail the whole parse (index forced
to 0) when it consumed nothing, otherwise append it, advance, skip
whitespace, skip one `,` if present, skip whitespace, repeat.  Returns the
collected elements and the final index, which is the consumed count. -/
def listLoopF : Nat → List Char → Nat → List JSON → List JSON × Nat
  | 0, _, i, acc => (acc, i)
  | fuel + 1, s, i, acc =>
    if i < s.length then
      if nthC s i = ']' then (acc, i + 1)
      else
        let r := parseF fuel (s.drop i)
        if r.2 = 0 then (acc, 0)
        else
          let i1 := skipWs s (i + r.2)
          let i2 := if nthC s i1 = ',' then i1 + 1 else i1
          let i3 := skipWs s i2
          listLoopF fuel s i3 (acc ++ [r.1])
    else (acc, i)

/-- The dict-parsing loop (lines 157-197): starting at index 1, stop past a
`}`; parse a key (fail on zero consumption or a non-string key), skip
whitespace, skip one `:` if present, skip whitespace, parse a value (fail on
zero consumption), `try_emplace` the pair, skip whitespace, skip one `,` if
present, skip whitespace, repeat. -/
def dictLoopF : Nat → List Char → Nat → List (List Char × JSON) →
    List (List Char × JSON) × Nat
  | 0, _, i, acc => (acc, i)
  | fuel + 1, s, i, acc =>
    if i < s.length then
      if nthC s i = '}' then (acc, i + 1)
      else
        let kr := parseF fuel (s.drop i)
        if kr.2 = 0 then (acc, 0)
        else
          let i1 := i + kr.2
          match kr.1 with
          | .str key =>
            let i2 := skipWs s i1
            let i3 := if nthC s i2 = ':' then i2 + 1 else i2
            let i4 := skipWs s i3
            let vr := parseF fuel (s.drop i4)
            if vr.2 = 0 then (acc, 0)
            else
              let i5 := i4 + vr.2
              let acc2 := tryEmplace acc key vr.1
              let i6 := skipWs s i5
              let i7 := if nthC s i6 = ',' then i6 + 1 else i6
              let i8 := skipWs s i7
              dictLoopF fuel s i8 acc2
          | _ => (acc, 0)
    else (acc, i)
end

/-- Fuel amply dominating the recursion depth of `parseF` on `s` (the depth
is at most quadratic in the length with small constants).  This is
`(s.length + 1) ^ 2`, written so that it is definitionally a successor. -/
def fuelFor (s : List Char) : Nat := s.length * s.length + 2 * s.length + 1

/-- `parse` (lines 64-201). -/
def parse (s : List Char) : JSON × Nat := parseF (fuelFor s) s

/-- Projection of the list loop (lines 131-153) onto its failure branch:
`true` exactly when the run of `listLoopF` from the same fuel and index —
the index trajectory and fuel threading below are verbatim those of
`listLoopF`; the accumulator does not influence them and is dropped —
reaches an element whose nested parse consumes nothing, which is the
`i = 0; break` at lines 140-143. -/
def listFails : Nat → List Char → Nat → Bool
  | 0, _, _ => false
  | fuel + 1, s, i =>
    if i < s.length then
      if nthC s i = ']' then false
      else
        let r := parseF fuel (s.drop i)
        if r.2 = 0 then true
        else
          let i1 := skipWs s (i + r.2)
          let i2 := if nthC s i1 = ',' then i1 + 1 else i1
          let i3 := skipWs s i2
          listFails fuel s i3
    else false

/-- Projection of the dict loop (lines 157-197) onto its failure branches,
with the same fuel threading and index trajectory as `dictLoopF`: `true`
exactly when the run reaches a key parse consuming nothing (the
`i = 0; break` at lines 165-168), a key that is not a String (the
`holds_alternative` guard, lines 170-173), or a value parse consuming
nothing (lines 183-186). -/
def dictFails : Nat → List Char → Nat → Bool
  | 0, _, _ => false
  | fuel + 1, s, i =>
    if i < s.length then
      if nthC s i = '}' then false
      else
        let kr := parseF fuel (s.drop i)
        if kr.2 = 0 then true
        else
          let i1 := i + kr.2
          match kr.1 with
          | .str _ =>
            let i2 := skipWs s i1
            let i3 := if nthC s i2 = ':' then i2 + 1 else i2
            let i4 := skipWs s i3
            let vr := parseF fuel (s.drop i4)
            if vr.2 = 0 then true
            else
              let i5 := i4 + vr.2
              let i6 := skipWs s i5
              let i7 := if nthC s i6 = ',' then i6 + 1 else i6
              let i8 := skipWs s i7
              dictFails fuel s i8
          | _ => true
    else false

/-! ### Basic lemmas about the helper functions -/

theorem wsCount_le (l : List Char) : wsCount l ≤ l.length := by
  induction l with
  | nil => simp [wsCount]
  | cons c r ih =>
    simp only [wsCount, List.length_cons]
    split <;> omega

theorem wsCount_cons_of_not_ws {c : Char} (h : isWsChar c = false) (r : List Char) :
    wsCount (c :: r) = 0 := by
  simp [wsCount, h]

theorem skipWs_ge (s : List Char) (i : Nat) : i ≤ skipWs s i :=
  Nat.le_add_right _ _

theorem skipWs_le (s : List Char) (i : Nat) (h : i ≤ s.length) :
    skipWs s i ≤ s.length := by
  have h2 := wsCount_le (s.drop i)
  simp only [List.length_drop] at h2
  simp only [skipWs]
  omega

theorem lt_of_nthC_eq {s : List Char} {i : Nat} {c : Char}
    (h : nthC s i = c) (hc : c ≠ '\x00') : i < s.length := by
  by_contra hlt
  rw [nthC, List.getD_eq_default _ _ (by omega)] at h
  exact hc h.symm

theorem digCount_le (l : List Char) : digCount l ≤ l.length := by
  induction l with
  | nil => simp [digCount]
  | cons c r ih =>
    simp only [digCount, List.length_cons]
    split <;> omega

theorem strScan_le (l : List Char) : ∀ (ph : Phase) (acc : List Char),
    (strScan ph l acc).2 ≤ l.length := by
  induction l with
  | nil => intro ph acc; cases ph <;> simp [strScan]
  | cons c r ih =>
    intro ph acc
    cases ph with
    | raw =>
      simp only [strScan, List.length_cons]
      split
      · have := ih .esc acc; omega
      · split
        · omega
        · have := ih .raw (acc ++ [c]); omega
    | esc =>
      simp only [strScan, List.length_cons]
      have := ih .raw (acc ++ [unescaped_char c]); omega

theorem strScan_of_noTerm (l : List Char) : ∀ (ph : Phase) (acc : List Char),
    hasTerm ph l = false → (strScan ph l acc).2 = l.length := by
  induction l with
  | nil => intro ph acc _; cases ph <;> simp [strScan]
  | cons c r ih =>
    intro ph acc h
    cases ph with
    | raw =>
      simp only [hasTerm] at h
      simp only [strScan, List.length_cons]
      split
      · rename_i hc
        rw [if_pos hc] at h
        rw [ih .esc acc h]
      · rename_i hc
        rw [if_neg hc] at h
        split
        · rename_i hq; rw [if_pos hq] at h; exact absurd h (by simp)
        · rename_i hq; rw [if_neg hq] at h; rw [ih .raw (acc ++ [c]) h]
    | esc =>
      simp only [hasTerm] at h
      simp only [strScan, List.length_cons]
      rw [ih .raw (acc ++ [unescaped_char c]) h]

theorem strScan_raw_bs (r acc : List Char) :
    strScan .raw ('\\' :: r) acc =
      ((strScan .esc r acc).1, (strScan .esc r acc).2 + 1) := by
  simp [strScan]

theorem strScan_raw_other (c : Char) (r acc : List Char) (h1 : c ≠ '\\')
    (h2 : c ≠ '"') :
    strScan .raw (c :: r) acc =
      ((strScan .raw r (acc ++ [c])).1, (strScan .raw r (acc ++ [c])).2 + 1) := by
  simp [strScan, h1, h2]

theorem strScan_esc_cons (c : Char) (r acc : List Char) :
    strScan .esc (c :: r) acc =
      ((strScan .raw r (acc ++ [unescaped_char c])).1,
        (strScan .raw r (acc ++ [unescaped_char c])).2 + 1) := rfl

theorem intPartLen_pos {l : List Char} {i : Nat} (h : intPartLen l = some i) :
    1 ≤ i := by
  match l with
  | [] => simp [intPartLen] at h
  | c :: r =>
    simp only [intPartLen] at h
    split at h
    · simp only [Option.some.injEq] at h; omega
    · split at h
      · simp only [Option.some.injEq] at h; omega
      · exact absurd h (by simp)

theorem intPartLen_le {l : List Char} {i : Nat} (h : intPartLen l = some i) :
    i ≤ l.length := by
  match l with
  | [] => simp [intPartLen] at h
  | c :: r =>
    have hd := digCount_le r
    simp only [intPartLen] at h
    split at h
    · simp only [Option.some.injEq] at h; simp [List.length_cons]; omega
    · split at h
      · simp only [Option.some.injEq] at h; simp [List.length_cons]; omega
      · exact absurd h (by simp)

theorem fracLen_le (l : List Char) : fracLen l ≤ l.length := by
  match l with
  | [] => simp [fracLen]
  | c :: r =>
    have hd := digCount_le r
    simp only [fracLen, List.length_cons]
    split
    · split <;> omega
    · omega

theorem expLen_le (l : List Char) : expLen l ≤ l.length := by
  match l with
  | [] => simp [expLen]
  | c :: r =>
    simp only [expLen, List.length_cons]
    split
    · match r with
      | [] => simp
      | x :: r2 =>
        have hd := digCount_le r2
        have hd2 := digCount_le (x :: r2)
        simp only [List.length_cons] at hd2 ⊢
        split
        · split <;> omega
        · split <;> omega
    · omega

theorem matchNumAt_pos {l : List Char} {n : Nat} (h : matchNumAt l = some n) :
    1 ≤ n := by
  match l with
  | [] => simp [matchNumAt] at h
  | c :: r =>
    simp only [matchNumAt] at h
    split at h <;>
    · simp only [Option.map_eq_some'] at h
      obtain ⟨i, hi, hn⟩ := h
      have := intPartLen_pos hi
      omega

theorem matchNumAt_le {l : List Char} {n : Nat} (h : matchNumAt l = some n) :
    n ≤ l.length := by
  match l with
  | [] => simp [matchNumAt] at h
  | c :: r =>
    simp only [matchNumAt] at h
    split at h
    · simp only [Option.map_eq_some'] at h
      obtain ⟨i, hi, hn⟩ := h
      have h1 := intPartLen_le hi
      have h2 := fracLen_le (r.drop i)
      have h3 := expLen_le ((r.drop i).drop (fracLen (r.drop i)))
      simp only [List.length_drop] at h2 h3
      simp only [List.length_cons]
      omega
    · simp only [Option.map_eq_some'] at h
      obtain ⟨i, hi, hn⟩ := h
      have h1 := intPartLen_le hi
      have h2 := fracLen_le ((c :: r).drop i)
      have h3 := expLen_le (((c :: r).drop i).drop (fracLen ((c :: r).drop i)))
      simp only [List.length_drop, List.length_cons] at h1 h2 h3 ⊢
      omega

theorem searchNum_matchAt {s : List Char} {p n : Nat}
    (h : searchNum s = some (p, n)) : matchNumAt (s.drop p) = some n := by
  induction s generalizing p with
  | nil => simp [searchNum] at h
  | cons c r ih =>
    simp only [searchNum] at h
    split at h
    · rename_i m hm
      simp only [Option.some.injEq, Prod.mk.injEq] at h
      obtain ⟨hp, hn⟩ := h
      subst hp; subst hn
      simpa using hm
    · simp only [Option.map_eq_some'] at h
      obtain ⟨⟨p2, n2⟩, hpn, heq⟩ := h
      simp only [Prod.mk.injEq] at heq
      obtain ⟨hp, hn⟩ := heq
      subst hn
      have := ih hpn
      rw [← hp]
      simpa using this

theorem numBranch_consumed {s : List Char} {r : JSON × Nat}
    (h : numBranch s = some r) : 1 ≤ r.2 ∧ r.2 ≤ s.length := by
  simp only [numBranch] at h
  split at h
  · exact absurd h (by simp)
  · rename_i pn hpn
    have hm := searchNum_matchAt hpn
    have h1 := matchNumAt_pos hm
    have h2 := matchNumAt_le hm
    simp only [List.length_drop] at h2
    have hlen : ((s.drop pn.1).take pn.2).length = pn.2 := by
      simp only [List.length_take, List.length_drop]
      omega
    split at h
    · simp only [Option.some.injEq] at h
      subst h
      simp only [hlen]
      omega
    · split at h
      · simp only [Option.some.injEq] at h
        subst h
        simp only [hlen]
        omega
      · exact absurd h (by simp)

/-! ### Character-class facts and one-step unfolding of `parseF` -/

theorem numStart_facts {c : Char} (h : isDigit c = true ∨ c = '+' ∨ c = '-') :
    isWsChar c = false ∧ c ≠ '"' ∧ c ≠ '[' ∧ c ≠ '{' := by
  rcases h with h | h | h
  · simp only [isDigit, decide_eq_true_eq] at h
    obtain ⟨h1, h2⟩ := h
    refine ⟨?_, ?_, ?_, ?_⟩
    · simp only [isWsChar]
      apply decide_eq_false
      intro hw
      rcases hw with rfl | rfl | rfl | rfl | rfl | rfl <;> revert h1 h2 <;> decide
    · intro rfl_eq; rw [rfl_eq] at h1; revert h1; decide
    · intro rfl_eq; rw [rfl_eq] at h2; revert h2; decide
    · intro rfl_eq; rw [rfl_eq] at h2; revert h2; decide
  · subst h; refine ⟨by decide, by decide, by decide, by decide⟩
  · subst h; refine ⟨by decide, by decide, by decide, by decide⟩

theorem parseF_succ (fuel : Nat) (c : Char) (rest : List Char) :
    parseF (fuel + 1) (c :: rest) =
      (let s := c :: rest
       let cnt := wsCount s
       if 0 < cnt ∧ cnt < s.length then
         let r := parseF fuel (s.drop cnt)
         (r.1, r.2 + cnt)
       else
         let numRes := if isDigit c ∨ c = '+' ∨ c = '-' then numBranch s else none
         numRes.getD
           (if c = '"' then
             let p := strScan .raw s.tail []
             (.str p.1, 1 + p.2)
           else if c = '[' then
             let p := listLoopF fuel s 1 []
             (.list p.1, p.2)
           else if c = '{' then
             let p := dictLoopF fuel s 1 []
             (.map p.1, p.2)
           else (.null, 0))) := rfl

theorem listLoopF_succ (fuel : Nat) (s : List Char) (i : Nat) (acc : List JSON) :
    listLoopF (fuel + 1) s i acc =
      (if i < s.length then
        if nthC s i = ']' then (acc, i + 1)
        else
          let r := parseF fuel (s.drop i)
          if r.2 = 0 then (acc, 0)
          else
            let i1 := skipWs s (i + r.2)
            let i2 := if nthC s i1 = ',' then i1 + 1 else i1
            let i3 := skipWs s i2
            listLoopF fuel s i3 (acc ++ [r.1])
      else (acc, i)) := rfl

theorem dictLoopF_succ (fuel : Nat) (s : List Char) (i : Nat)
    (acc : List (List Char × JSON)) :
    dictLoopF (fuel + 1) s i acc =
      (if i < s.length then
        if nthC s i = '}' then (acc, i + 1)
        else
          let kr := parseF fuel (s.drop i)
          if kr.2 = 0 then (acc, 0)
          else
            let i1 := i + kr.2
            match kr.1 with
            | .str key =>
              let i2 := skipWs s i1
              let i3 := if nthC s i2 = ':' then i2 + 1 else i2
              let i4 := skipWs s i3
              let vr := parseF fuel (s.drop i4)
              if vr.2 = 0 then (acc, 0)
              else
                let i5 := i4 + vr.2
                let acc2 := tryEmplace acc key vr.1
                let i6 := skipWs s i5
                let i7 := if nthC s i6 = ',' then i6 + 1 else i6
                let i8 := skipWs s i7
                dictLoopF fuel s i8 acc2
            | _ => (acc, 0)
      else (acc, i)) := rfl

theorem parseF_nil (fuel : Nat) : parseF fuel [] = (.null, 0) := by
  cases fuel <;> rfl

/-- The leading-whitespace branch (lines 71-75): the skipped offset is added
back onto whatever the recursive call consumed. -/
theorem parseF_ws (fuel : Nat) (s : List Char) (h1 : 0 < wsCount s)
    (h2 : wsCount s < s.length) :
    parseF (fuel + 1) s =
      ((parseF fuel (s.drop (wsCount s))).1,
       (parseF fuel (s.drop (wsCount s))).2 + wsCount s) := by
  match s with
  | [] => simp at h2
  | c :: rest =>
    rw [parseF_succ]
    simp only
    rw [if_pos ⟨h1, h2⟩]

/-- The number branch (lines 78-92) together with the final fall-through:
when the first byte is a digit, `+` or `-`, the result of `parse` is the
result of the number branch, or `(Null, 0)` when that branch fails. -/
theorem parseF_num (fuel : Nat) (c : Char) (rest : List Char)
    (hd : isDigit c = true ∨ c = '+' ∨ c = '-') :
    parseF (fuel + 1) (c :: rest) = (numBranch (c :: rest)).getD (.null, 0) := by
  obtain ⟨hws, hq, hl, hb⟩ := numStart_facts hd
  rw [parseF_succ]
  simp only [wsCount_cons_of_not_ws hws, if_pos hd]
  rw [if_neg (by simp), if_neg hq, if_neg hl, if_neg hb]

/-- The string branch (lines 95-121). -/
theorem parseF_str (fuel : Nat) (rest : List Char) :
    parseF (fuel + 1) ('"' :: rest) =
      (.str (strScan .raw rest []).1, 1 + (strScan .raw rest []).2) := by
  rw [parseF_succ]
  simp only [wsCount_cons_of_not_ws (show isWsChar '"' = false by decide)]
  rw [if_neg (by simp), if_neg (by decide)]
  simp

/-- The list branch (lines 131-153). -/
theorem parseF_list (fuel : Nat) (rest : List Char) :
    parseF (fuel + 1) ('[' :: rest) =
      (.list (listLoopF fuel ('[' :: rest) 1 []).1,
       (listLoopF fuel ('[' :: rest) 1 []).2) := by
  rw [parseF_succ]
  simp only [wsCount_cons_of_not_ws (show isWsChar '[' = false by decide)]
  rw [if_neg (by simp), if_neg (by decide)]
  simp

/-- The dict branch (lines 157-197). -/
theorem parseF_dict (fuel : Nat) (rest : List Char) :
    parseF (fuel + 1) ('{' :: rest) =
      (.map (dictLoopF fuel ('{' :: rest) 1 []).1,
       (dictLoopF fuel ('{' :: rest) 1 []).2) := by
  rw [parseF_succ]
  simp only [wsCount_cons_of_not_ws (show isWsChar '{' = false by decide)]
  rw [if_neg (by simp), if_neg (by decide)]
  simp

theorem parse_eq_parseF (s : List Char) :
    parse s = parseF (s.length * s.length + 2 * s.length + 1) s := rfl

/-- The `eaten == 0` check of the list loop (lines 140-143): a failed element
parse forces `i = 0` and the loop exits immediately, returning the elements
accumulated so far paired with consumed count 0. -/
theorem listLoopF_elemFail (fuel : Nat) (s : List Char) (i : Nat)
    (acc : List JSON) (h1 : i < s.length) (h2 : nthC s i ≠ ']')
    (h3 : (parseF fuel (s.drop i)).2 = 0) :
    listLoopF (fuel + 1) s i acc = (acc, 0) := by
  rw [listLoopF_succ, if_pos h1, if_neg h2]
  simp only [h3, if_pos]

/-- The `keyeaten == 0` check of the dict loop (lines 166-169). -/
theorem dictLoopF_keyFail (fuel : Nat) (s : List Char) (i : Nat)
    (acc : List (List Char × JSON)) (h1 : i < s.length) (h2 : nthC s i ≠ '}')
    (h3 : (parseF fuel (s.drop i)).2 = 0) :
    dictLoopF (fuel + 1) s i acc = (acc, 0) := by
  rw [dictLoopF_succ, if_pos h1, if_neg h2]
  simp only [h3, if_pos]

/-- The `holds_alternative<std::string>` check of the dict loop (lines
171-174): a key that parsed successfully but is not a String fails the whole
dict parse. -/
theorem dictLoopF_keyNotStr (fuel : Nat) (s : List Char) (i : Nat)
    (acc : List (List Char × JSON)) (h1 : i < s.length) (h2 : nthC s i ≠ '}')
    (h3 : (parseF fuel (s.drop i)).2 ≠ 0)
    (h4 : ∀ k, (parseF fuel (s.drop i)).1 ≠ JSON.str k) :
    dictLoopF (fuel + 1) s i acc = (acc, 0) := by
  rw [dictLoopF_succ, if_pos h1, if_neg h2]
  simp only []
  rw [if_neg h3]

/-- After a successful element, the loops skip whitespace, optionally one
separator character, then whitespace again; the index stays in range. -/
theorem sep_le {s : List Char} {j : Nat} (c : Char) (hc : c ≠ '\x00')
    (h : j ≤ s.length) :
    skipWs s (if nthC s j = c then j + 1 else j) ≤ s.length := by
  split
  · rename_i hcc
    have := lt_of_nthC_eq hcc hc
    exact skipWs_le s _ (by omega)
  · exact skipWs_le s _ h

/-! ### C9: the consumed count never exceeds the input length -/

/-- Mutual invariant: the consumed count returned by the parser is at most
the input length, and each container loop keeps its index within the input
as long as it started there. -/
theorem consumed_le (fuel : Nat) :
    (∀ s, (parseF fuel s).2 ≤ s.length) ∧
    (∀ s i acc, i ≤ s.length → (listLoopF fuel s i acc).2 ≤ s.length) ∧
    (∀ s i acc, i ≤ s.length → (dictLoopF fuel s i acc).2 ≤ s.length) := by
  induction fuel with
  | zero =>
    refine ⟨fun s => ?_, fun s i acc h => ?_, fun s i acc h => ?_⟩ <;>
      simp [parseF, listLoopF, dictLoopF] <;> omega
  | succ fuel ih =>
    obtain ⟨ihp, ihl, ihd⟩ := ih
    refine ⟨fun s => ?_, fun s i acc hi => ?_, fun s i acc hi => ?_⟩
    · match s with
      | [] => simp [parseF_nil]
      | c :: rest =>
        rw [parseF_succ]
        simp only []
        split
        · rename_i hcond
          have hlen := ihp ((c :: rest).drop (wsCount (c :: rest)))
          simp only [List.length_drop] at hlen
          omega
        · by_cases hd : isDigit c = true ∨ c = '+' ∨ c = '-'
          · rw [if_pos hd]
            cases hnb : numBranch (c :: rest) with
            | some r =>
              rw [Option.getD_some]
              exact (numBranch_consumed hnb).2
            | none =>
              rw [Option.getD_none]
              obtain ⟨hws2, hq, hl, hb⟩ := numStart_facts hd
              rw [if_neg hq, if_neg hl, if_neg hb]
              simp
          · rw [if_neg hd, Option.getD_none]
            split
            · have := strScan_le rest .raw []
              simp only [List.tail_cons, List.length_cons]
              omega
            · split
              · have := ihl (c :: rest) 1 [] (by simp)
                exact this
              · split
                · have := ihd (c :: rest) 1 [] (by simp)
                  exact this
                · simp
    · rw [listLoopF_succ]
      split
      · rename_i hlt
        split
        · exact hlt
        · simp only []
          split
          · simp
          · rename_i hne hnz
            have hr := ihp (s.drop i)
            simp only [List.length_drop] at hr
            have h1 : i + (parseF (fuel) (s.drop i)).2 ≤ s.length := by omega
            have h2 := skipWs_le s _ h1
            apply ihl
            split
            · rename_i hcomma
              have := lt_of_nthC_eq hcomma (by decide)
              exact skipWs_le s _ (by omega)
            · exact skipWs_le s _ h2
      · exact hi
    · rw [dictLoopF_succ]
      split
      · rename_i hlt
        split
        · exact hlt
        · simp only []
          split
          · simp
          · rename_i hne hnz
            have hkr := ihp (s.drop i)
            simp only [List.length_drop] at hkr
            have h1 : i + (parseF (fuel) (s.drop i)).2 ≤ s.length := by omega
            split
            · rename_i key hkey
              have h2 := skipWs_le s _ h1
              set j := skipWs s
                (if nthC s (skipWs s (i + (parseF fuel (s.drop i)).2)) = ':'
                  then skipWs s (i + (parseF fuel (s.drop i)).2) + 1
                  else skipWs s (i + (parseF fuel (s.drop i)).2)) with hj
              have h5 : j ≤ s.length := sep_le ':' (by decide) h2
              have hvr := ihp (s.drop j)
              simp only [List.length_drop] at hvr
              by_cases hv0 : (parseF fuel (s.drop j)).2 = 0
              · rw [if_pos hv0]
                exact Nat.zero_le _
              · rw [if_neg hv0]
                apply ihd
                exact sep_le ',' (by decide) (skipWs_le s _ (by omega))
            · simp
      · exact hi

/-- C9 (confirmed): for every input, the consumed length returned by `parse`
is a valid offset into the input, i.e. it lies in `[0, input.length]` (the
lower bound is inherent to `Nat`). -/
theorem c9_consumed_in_range (s : List Char) : (parse s).2 ≤ s.length :=
  (consumed_le (fuelFor s)).1 s

/-! ### C1: what value accompanies `consumed == 0` -/

/-- C1 counterexample: on input `[x` the element parse fails, and the array
branch returns the partially built (here empty) List — not Null — paired
with consumed 0.  So `consumed == 0` is not always paired with `Null`. -/
theorem c1_cex : parse ['[', 'x'] = (.list [], 0) ∧ JSON.list [] ≠ JSON.null :=
  ⟨rfl, fun h => JSON.noConfusion h⟩

/-- C1 (amended): whenever `parse` returns `consumed == 0` the value is
`Null`, a List, or a Map — `Null` when no branch matched, and the partially
built container when a recursive parse inside an array or object failed; the
elements collected before the failure are retained in the returned value
(only the zero count makes recursive callers discard them). -/
theorem c1_amended :
    (∀ fuel s, (parseF fuel s).2 = 0 →
      (parseF fuel s).1 = JSON.null ∨ (∃ l, (parseF fuel s).1 = JSON.list l) ∨
        (∃ m, (parseF fuel s).1 = JSON.map m)) ∧
    (∀ fuel s i acc, i < s.length → nthC s i ≠ ']' →
      (parseF fuel (s.drop i)).2 = 0 →
      listLoopF (fuel + 1) s i acc = (acc, 0)) ∧
    (∀ fuel s i acc, i < s.length → nthC s i ≠ '}' →
      (parseF fuel (s.drop i)).2 = 0 →
      dictLoopF (fuel + 1) s i acc = (acc, 0)) := by
  refine ⟨?_, listLoopF_elemFail, dictLoopF_keyFail⟩
  intro fuel s h
  match fuel, s with
  | 0, s => exact Or.inl rfl
  | fuel + 1, [] => exact Or.inl rfl
  | fuel + 1, c :: rest =>
    rw [parseF_succ] at h ⊢
    simp only [] at h ⊢
    by_cases hws : 0 < wsCount (c :: rest) ∧ wsCount (c :: rest) < (c :: rest).length
    · rw [if_pos hws] at h
      simp only [] at h
      exact absurd h (by omega)
    · rw [if_neg hws] at h ⊢
      by_cases hd : isDigit c = true ∨ c = '+' ∨ c = '-'
      · rw [if_pos hd] at h ⊢
        cases hnb : numBranch (c :: rest) with
        | some r =>
          rw [hnb] at h
          rw [Option.getD_some] at h ⊢
          have := (numBranch_consumed hnb).1
          exact absurd h (by omega)
        | none =>
          rw [hnb] at h
          rw [Option.getD_none] at h ⊢
          obtain ⟨hws2, hq, hl, hb⟩ := numStart_facts hd
          rw [if_neg hq, if_neg hl, if_neg hb] at h ⊢
          exact Or.inl rfl
      · rw [if_neg hd, Option.getD_none] at h ⊢
        by_cases hq : c = '"'
        · rw [if_pos hq] at h
          simp only [] at h
          exact absurd h (by omega)
        · rw [if_neg hq] at h ⊢
          by_cases hl : c = '['
          · rw [if_pos hl] at h ⊢
            exact Or.inr (Or.inl ⟨_, rfl⟩)
          · rw [if_neg hl] at h ⊢
            by_cases hb : c = '{'
            · rw [if_pos hb] at h ⊢
              exact Or.inr (Or.inr ⟨_, rfl⟩)
            · rw [if_neg hb] at h ⊢
              exact Or.inl rfl

/-- C1 witness: the amended statement applied at concrete inputs. -/
theorem c1_witness :
    ((parseF 9 ['x']).2 = 0 ∧
      ((parseF 9 ['x']).1 = JSON.null ∨
        (∃ l, (parseF 9 ['x']).1 = JSON.list l) ∨
        (∃ m, (parseF 9 ['x']).1 = JSON.map m))) ∧
      listLoopF 9 ['[', 'x'] 1 [] = ([], 0) :=
  ⟨⟨rfl, c1_amended.1 9 ['x'] rfl⟩,
    c1_amended.2.1 8 ['[', 'x'] 1 [] (by decide) (by decide) rfl⟩

/-! ### C2: leading whitespace before a failing remainder -/

/-- C2 counterexample: `x` alone fails with consumed 0, but a space followed
by `x` returns consumed 1 — the whitespace offset is added back even though
the remainder failed, so the `consumed == 0` sentinel does NOT propagate
through skipped whitespace. -/
theorem c2_cex : parse ['x'] = (.null, 0) ∧ parse [' ', 'x'] = (.null, 1) :=
  ⟨rfl, rfl⟩

/-- C2 (amended): when a nonempty run of leading whitespace precedes a
remainder on which the parse fails with `consumed == 0`, the whole parse
returns the failed value paired with the whitespace run length — a NONZERO
consumed count.  The failure sentinel is destroyed, not propagated, and the
skipped whitespace is counted as consumption of the failed parse. -/
theorem c2_ws_absorbs_failure (fuel : Nat) (s : List Char)
    (h1 : 0 < wsCount s) (h2 : wsCount s < s.length)
    (h3 : (parseF fuel (s.drop (wsCount s))).2 = 0) :
    parseF (fuel + 1) s = ((parseF fuel (s.drop (wsCount s))).1, wsCount s) := by
  rw [parseF_ws fuel s h1 h2, h3, Nat.zero_add]

/-- C2 witness. -/
theorem c2_witness :
    0 < wsCount [' ', 'x'] ∧ wsCount [' ', 'x'] < ([' ', 'x'] : List Char).length ∧
      (parseF 8 (List.drop (wsCount [' ', 'x']) [' ', 'x'])).2 = 0 ∧
      parseF 9 [' ', 'x'] = (JSON.null, 1) := by
  refine ⟨by decide, by decide, rfl, ?_⟩
  exact (c2_ws_absorbs_failure 8 [' ', 'x'] (by decide) (by decide) rfl).trans rfl

/-! ### C5: unterminated arrays and objects -/

theorem listFails_succ (fuel : Nat) (s : List Char) (i : Nat) :
    listFails (fuel + 1) s i =
      (if i < s.length then
        if nthC s i = ']' then false
        else
          let r := parseF fuel (s.drop i)
          if r.2 = 0 then true
          else
            let i1 := skipWs s (i + r.2)
            let i2 := if nthC s i1 = ',' then i1 + 1 else i1
            let i3 := skipWs s i2
            listFails fuel s i3
      else false) := rfl

theorem dictFails_succ (fuel : Nat) (s : List Char) (i : Nat) :
    dictFails (fuel + 1) s i =
      (if i < s.length then
        if nthC s i = '}' then false
        else
          let kr := parseF fuel (s.drop i)
          if kr.2 = 0 then true
          else
            let i1 := i + kr.2
            match kr.1 with
            | .str _ =>
              let i2 := skipWs s i1
              let i3 := if nthC s i2 = ':' then i2 + 1 else i2
              let i4 := skipWs s i3
              let vr := parseF fuel (s.drop i4)
              if vr.2 = 0 then true
              else
                let i5 := i4 + vr.2
                let i6 := skipWs s i5
                let i7 := if nthC s i6 = ',' then i6 + 1 else i6
                let i8 := skipWs s i7
                dictFails fuel s i8
            | _ => true
      else false) := rfl

/-- C5 counterexample: the inputs `[` and `{` have no closing bracket, yet
the parse does NOT fail: it returns the empty container with consumed 1. -/
theorem c5_cex : parse ['['] = (.list [], 1) ∧ parse ['{'] = (.map [], 1) :=
  ⟨rfl, rfl⟩

/-- C5 (amended): an array or object whose closing bracket never appears is
not rejected as such — when the loop reaches the end of the input without a
nested failure, the partial container is returned with a nonzero consumed
count (e.g. `[`, `{`, `[1`).  Precisely: for every loop run from a positive
index (the loops start at 1) with any fuel and accumulator, the returned
consumed count is `0` if and only if the failure branch fires during that
very run — `listFails`/`dictFails` replay the run's own index trajectory and
fuel threading — i.e. some nested element/key/value parse consumes nothing
or a key is not a String; the end-of-input and fuel-exhaustion exits return
the current positive index and the `]`/`}` exits return index + 1, so an
unterminated container without a nested failure never yields the sentinel. -/
theorem c5_amended :
    parse ['[', '1'] = (.list [.int 1], 2) ∧
    (∀ fuel s i acc, 1 ≤ i →
      ((listLoopF fuel s i acc).2 = 0 ↔ listFails fuel s i = true)) ∧
    (∀ fuel s i acc, 1 ≤ i →
      ((dictLoopF fuel s i acc).2 = 0 ↔ dictFails fuel s i = true)) := by
  refine ⟨rfl, ?_, ?_⟩
  · intro fuel
    induction fuel with
    | zero =>
      intro s i acc h1
      simp only [listLoopF, listFails]
      constructor
      · intro h2
        exact absurd h2 (by omega)
      · intro h2
        exact absurd h2 (by simp)
    | succ fuel ih =>
      intro s i acc h1
      rw [listLoopF_succ, listFails_succ]
      by_cases hlt : i < s.length
      · rw [if_pos hlt, if_pos hlt]
        by_cases hbr : nthC s i = ']'
        · rw [if_pos hbr, if_pos hbr]
          simp only []
          constructor
          · intro h2
            exact absurd h2 (by omega)
          · intro h2
            exact absurd h2 (by simp)
        · rw [if_neg hbr, if_neg hbr]
          simp only []
          by_cases h0 : (parseF fuel (s.drop i)).2 = 0
          · rw [if_pos h0, if_pos h0]
            simp
          · rw [if_neg h0, if_neg h0]
            refine ih s _ _ (le_trans ?_ (skipWs_ge s _))
            have g1 := skipWs_ge s (i + (parseF fuel (s.drop i)).2)
            split <;> omega
      · rw [if_neg hlt, if_neg hlt]
        simp only []
        constructor
        · intro h2
          exact absurd h2 (by omega)
        · intro h2
          exact absurd h2 (by simp)
  · intro fuel
    induction fuel with
    | zero =>
      intro s i acc h1
      simp only [dictLoopF, dictFails]
      constructor
      · intro h2
        exact absurd h2 (by omega)
      · intro h2
        exact absurd h2 (by simp)
    | succ fuel ih =>
      intro s i acc h1
      rw [dictLoopF_succ, dictFails_succ]
      by_cases hlt : i < s.length
      · rw [if_pos hlt, if_pos hlt]
        by_cases hbr : nthC s i = '}'
        · rw [if_pos hbr, if_pos hbr]
          simp only []
          constructor
          · intro h2
            exact absurd h2 (by omega)
          · intro h2
            exact absurd h2 (by simp)
        · rw [if_neg hbr, if_neg hbr]
          simp only []
          by_cases h0 : (parseF fuel (s.drop i)).2 = 0
          · rw [if_pos h0, if_pos h0]
            simp
          · rw [if_neg h0, if_neg h0]
            cases hk : (parseF fuel (s.drop i)).1 with
            | str key =>
              simp only []
              set j4 := skipWs s
                (if nthC s (skipWs s (i + (parseF fuel (s.drop i)).2)) = ':'
                  then skipWs s (i + (parseF fuel (s.drop i)).2) + 1
                  else skipWs s (i + (parseF fuel (s.drop i)).2)) with hj4def
              by_cases hv : (parseF fuel (s.drop j4)).2 = 0
              · rw [if_pos hv, if_pos hv]
                simp
              · rw [if_neg hv, if_neg hv]
                refine ih s _ _ (le_trans ?_ (skipWs_ge s _))
                have g1 := skipWs_ge s (j4 + (parseF fuel (s.drop j4)).2)
                split <;> omega
            | null => simp
            | bool b => simp
            | int n => simp
            | double q => simp
            | list l => simp
            | map m => simp
      · rw [if_neg hlt, if_neg hlt]
        simp only []
        constructor
        · intro h2
          exact absurd h2 (by omega)
        · intro h2
          exact absurd h2 (by simp)

/-- C5 witness: the characterization applied at the loops' start index 1 to
`[x` and `{x`, whose element/key parses fail. -/
theorem c5_witness :
    (1 ≤ 1 ∧
      ((listLoopF 8 ['[', 'x'] 1 []).2 = 0 ↔ listFails 8 ['[', 'x'] 1 = true)) ∧
    (1 ≤ 1 ∧
      ((dictLoopF 8 ['{', 'x'] 1 []).2 = 0 ↔ dictFails 8 ['{', 'x'] 1 = true)) :=
  ⟨⟨by decide, c5_amended.2.1 8 ['[', 'x'] 1 [] (by decide)⟩,
   ⟨by decide, c5_amended.2.2 8 ['{', 'x'] 1 [] (by decide)⟩⟩

/-! ### C6: the whitespace set and the NUL character -/

/-- C6 (code_bug evidence): the six genuine whitespace characters are
skipped (shown here for a single space), but a leading NUL character is NOT
skipped: `find_first_not_of(" \n\r\t\v\f\0")` receives its set as a
`const char*`, whose length `strlen` computes, so the embedded `\0` written
in the source literal truncates the set and NUL matches no branch at all:
the parse fails with `(Null, 0)` instead of skipping to the digit. -/
theorem c6_nul_not_whitespace :
    parse ['\x00', '1'] = (.null, 0) ∧ parse [' ', '1'] = (.int 1, 2) :=
  ⟨rfl, rfl⟩

/-! ### C7: unterminated strings are accepted -/

/-- C7 (confirmed): an input that opens a string literal and ends before any
terminating unescaped quote still yields a String (built by the scanner from
everything after the opening quote), and consumed equals the full input
length. -/
theorem c7_unterminated_string (rest : List Char)
    (h : hasTerm .raw rest = false) :
    parse ('"' :: rest) =
      (.str (strScan .raw rest []).1, ('"' :: rest).length) := by
  rw [parse_eq_parseF, parseF_str]
  have hs := strScan_of_noTerm rest .raw [] h
  rw [hs]
  have : 1 + rest.length = ('"' :: rest).length := by
    simp [List.length_cons]; omega
  rw [this]

/-- C7 witness. -/
theorem c7_witness :
    hasTerm .raw ['a', 'b'] = false ∧
      parse ['"', 'a', 'b'] = (.str ['a', 'b'], 3) :=
  ⟨by decide, (c7_unterminated_string ['a', 'b'] (by decide)).trans rfl⟩

/-! ### C8: duplicate object keys, first occurrence wins -/

theorem lookupKey_append {m : List (List Char × JSON)} {k : List Char}
    {v : JSON} (h : lookupKey m k = some v) (m2 : List (List Char × JSON)) :
    lookupKey (m ++ m2) k = some v := by
  induction m with
  | nil => simp [lookupKey] at h
  | cons kv r ih =>
    by_cases hk : kv.1 = k
    · simp only [lookupKey, List.cons_append, if_pos hk] at h ⊢
      exact h
    · simp only [lookupKey, List.cons_append, if_neg hk] at h ⊢
      exact ih h

/-- `try_emplace` never disturbs an existing binding. -/
theorem tryEmplace_preserves {m : List (List Char × JSON)} {k : List Char}
    {v : JSON} (h : lookupKey m k = some v) (key : List Char) (val : JSON) :
    lookupKey (tryEmplace m key val) k = some v := by
  unfold tryEmplace
  split
  · exact h
  · exact lookupKey_append h _

/-- C8 (confirmed): once a key is bound in the accumulating map, no later
entry of the object loop can rebind it (`try_emplace` drops duplicates), so
the first occurrence's value is retained; and on the spec's own scenario the
duplicate `"a"` keeps its first value. -/
theorem c8_first_wins :
    (∀ fuel s i acc k v, lookupKey acc k = some v →
        lookupKey (dictLoopF fuel s i acc).1 k = some v) ∧
      parse ['{', '"', 'a', '"', ':', '1', ',', '"', 'a', '"', ':', '2', '}'] =
        (.map [(['a'], .int 1)], 13) := by
  constructor
  · intro fuel
    induction fuel with
    | zero => intro s i acc k v h; exact h
    | succ fuel ih =>
      intro s i acc k v h
      rw [dictLoopF_succ]
      by_cases hlt : i < s.length
      · rw [if_pos hlt]
        by_cases hbr : nthC s i = '}'
        · rw [if_pos hbr]; exact h
        · rw [if_neg hbr]
          simp only []
          by_cases h0 : (parseF fuel (s.drop i)).2 = 0
          · rw [if_pos h0]; exact h
          · rw [if_neg h0]
            split
            · rename_i key hkey
              repeat' split
              all_goals first
                | exact h
                | exact ih _ _ _ _ _ (tryEmplace_preserves h _ _)
            · exact h
      · rw [if_neg hlt]; exact h
  · rfl

/-- C8 witness. -/
theorem c8_witness :
    lookupKey [(['a'], JSON.int 7)] ['a'] = some (JSON.int 7) ∧
      lookupKey (dictLoopF 3 ['x'] 5 [(['a'], JSON.int 7)]).1 ['a'] =
        some (JSON.int 7) :=
  ⟨rfl, c8_first_wins.1 3 ['x'] 5 [(['a'], JSON.int 7)] ['a'] (JSON.int 7) rfl⟩

/-! ### C10: input ending in the Escape state -/

/-- Appending a final backslash to a scan that ends in the Raw state: the
scanner transitions to Escape on it, the input ends, and the pending escape
contributes no output character; only the consumed count grows by one. -/
theorem strScan_trailing_bs (l : List Char) : ∀ (ph : Phase) (acc : List Char),
    hasTerm ph l = false → endPhase ph l = .raw →
    strScan ph (l ++ ['\\']) acc = ((strScan ph l acc).1, l.length + 1) := by
  induction l with
  | nil =>
    intro ph acc h he
    cases ph with
    | raw => rfl
    | esc => simp [endPhase] at he
  | cons c r ih =>
    intro ph acc h he
    cases ph with
    | raw =>
      simp only [hasTerm] at h
      simp only [endPhase] at he
      by_cases hbs : c = '\\'
      · rw [if_pos hbs] at h he
        subst hbs
        rw [List.cons_append, strScan_raw_bs, strScan_raw_bs, ih .esc acc h he]
        simp [List.length_cons]
      · by_cases hq : c = '"'
        · rw [if_neg hbs, if_pos hq] at h
          exact absurd h (by simp)
        · rw [if_neg hbs, if_neg hq] at h
          rw [if_neg hbs] at he
          rw [List.cons_append, strScan_raw_other c _ _ hbs hq,
            strScan_raw_other c _ _ hbs hq, ih .raw (acc ++ [c]) h he]
          simp [List.length_cons]
    | esc =>
      simp only [hasTerm] at h
      simp only [endPhase] at he
      rw [List.cons_append, strScan_esc_cons, strScan_esc_cons,
        ih .raw (acc ++ [unescaped_char c]) h he]
      simp [List.length_cons]

/-- C10 (confirmed): for an input `"` + body + `\` whose body neither
terminates the string nor leaves the scanner mid-escape, the final
unescaped backslash puts the scanner in the Escape state at end of input;
the pending escape contributes no character — the result is the String
decoded from the body alone — and consumed is the full input length
(body length + 2). -/
theorem c10_trailing_backslash (body : List Char)
    (h : hasTerm .raw body = false) (he : endPhase .raw body = .raw) :
    parse ('"' :: (body ++ ['\\'])) =
      (.str (strScan .raw body []).1, body.length + 2) := by
  rw [parse_eq_parseF, parseF_str, strScan_trailing_bs body .raw [] h he]
  have : 1 + (body.length + 1) = body.length + 2 := by omega
  rw [this]

/-- C10 witness. -/
theorem c10_witness :
    hasTerm .raw ['a'] = false ∧ endPhase .raw ['a'] = .raw ∧
      parse ['"', 'a', '\\'] = (.str ['a'], 3) :=
  ⟨by decide, by decide,
    (c10_trailing_backslash ['a'] (by decide) (by decide)).trans rfl⟩

/-! ### C3/C4: the numeric grammar as the spec states it (§4.3)

The following `spec…` predicates are a second, independent rendering of the
grammar from the specification's words, used to compare the matcher against
the stated "longest lexeme" property.  The sign is `-` only, as in the
pattern the code compiles. -/

/-- "one or more digits". -/
def specDigits (l : List Char) : Prop := l ≠ [] ∧ ∀ x ∈ l, isDigit x = true

/-- "either the single digit `0` or a nonzero digit followed by zero or more
digits". -/
def specIntPart (l : List Char) : Prop :=
  l = ['0'] ∨
    ∃ c ds, l = c :: ds ∧ isNZDigit c = true ∧ ∀ x ∈ ds, isDigit x = true

/-- "optionally followed by a `.` and one or more digits" (empty = absent). -/
def specFrac (l : List Char) : Prop := l = [] ∨ ∃ ds, l = '.' :: ds ∧ specDigits ds

/-- "optionally followed by `e`/`E`, an optional sign, and one or more
digits" (empty = absent). -/
def specExp (l : List Char) : Prop :=
  l = [] ∨ ∃ e sg ds, l = e :: (sg ++ ds) ∧ (e = 'e' ∨ e = 'E') ∧
    (sg = [] ∨ sg = ['+'] ∨ sg = ['-']) ∧ specDigits ds

/-- A complete lexeme of the §4.3 grammar. -/
def specNumLexeme (l : List Char) : Prop :=
  ∃ sg ip f ex, l = sg ++ (ip ++ (f ++ ex)) ∧ (sg = [] ∨ sg = ['-']) ∧
    specIntPart ip ∧ specFrac f ∧ specExp ex

theorem specIntPart_ne_nil {l : List Char} (h : specIntPart l) : l ≠ [] := by
  rcases h with rfl | ⟨c, ds, rfl, _, _⟩ <;> simp

theorem nz_of_digit_ne_zero {c : Char} (h : isDigit c = true) (h0 : c ≠ '0') :
    isNZDigit c = true := by
  simp only [isDigit, decide_eq_true_eq] at h
  simp only [isNZDigit, decide_eq_true_eq]
  obtain ⟨h1, h2⟩ := h
  refine ⟨?_, h2⟩
  have hlt : '0' < c := lt_of_le_of_ne h1 (fun e => h0 e.symm)
  rw [Char.lt_def] at hlt
  rw [Char.le_def]
  rw [UInt32.lt_def] at hlt
  rw [UInt32.le_def]
  have e0 : (('0' : Char).val).toBitVec.toNat = 48 := rfl
  have e1 : (('1' : Char).val).toBitVec.toNat = 49 := rfl
  rw [BitVec.lt_def, e0] at hlt
  rw [BitVec.le_def, e1]
  omega

theorem digit_of_nz {c : Char} (h : isNZDigit c = true) : isDigit c = true := by
  simp only [isNZDigit, decide_eq_true_eq] at h
  simp only [isDigit, decide_eq_true_eq]
  exact ⟨le_trans (by decide) h.1, h.2⟩

theorem digit_ne_minus {c : Char} (h : isDigit c = true) : c ≠ '-' := by
  intro e; rw [e] at h; exact absurd h (by decide)

theorem digit_ne_signs {c : Char} (h : isDigit c = true) :
    ¬(c = '+' ∨ c = '-') := by
  rintro (e | e) <;> (rw [e] at h; exact absurd h (by decide))

theorem digCount_append_digits (ds l : List Char)
    (h : ∀ x ∈ ds, isDigit x = true) :
    digCount (ds ++ l) = ds.length + digCount l := by
  induction ds with
  | nil => simp
  | cons d ds2 ih =>
    have hd : isDigit d = true := h d (by simp)
    have ih2 := ih (fun x hx => h x (by simp [hx]))
    rw [List.cons_append]
    show (if isDigit d = true then digCount (ds2 ++ l) + 1 else 0) = _
    rw [if_pos hd, ih2, List.length_cons]
    omega

theorem digCount_all (l : List Char) (h : ∀ x ∈ l, isDigit x = true) :
    digCount l = l.length := by
  have := digCount_append_digits l [] h
  simpa using this

theorem take_digCount_digits (l : List Char) :
    ∀ x ∈ l.take (digCount l), isDigit x = true := by
  induction l with
  | nil => simp
  | cons c r ih =>
    by_cases hc : isDigit c = true
    · simp only [digCount, hc, if_true, List.take_succ_cons]
      intro x hx
      rcases List.mem_cons.mp hx with rfl | hx2
      · exact hc
      · exact ih x hx2
    · simp [digCount, hc]

theorem digCount_pos_head (l : List Char) (h : 0 < digCount l) :
    ∃ d l2, l = d :: l2 ∧ isDigit d = true := by
  match l with
  | [] => simp [digCount] at h
  | c :: r =>
    by_cases hc : isDigit c = true
    · exact ⟨c, r, rfl, hc⟩
    · simp [digCount, hc] at h

theorem expLen_eq_nosign (c d : Char) (r2 : List Char) (he : c = 'e' ∨ c = 'E')
    (hd : ¬(d = '+' ∨ d = '-')) (hpos : 0 < digCount (d :: r2)) :
    expLen (c :: d :: r2) = 1 + digCount (d :: r2) := by
  simp only [expLen, if_pos he, if_neg hd]
  rw [if_neg (by omega)]

theorem expLen_eq_sign (c x : Char) (r2 : List Char) (he : c = 'e' ∨ c = 'E')
    (hx : x = '+' ∨ x = '-') (hpos : 0 < digCount r2) :
    expLen (c :: x :: r2) = 2 + digCount r2 := by
  simp only [expLen, if_pos he, if_pos hx]
  rw [if_neg (by omega)]

/-- The spec's exponent group is never longer than the greedy one that
`expLen` matches at the same position. -/
theorem specExp_le (x tail : List Char) (hx : specExp x) :
    x.length ≤ expLen (x ++ tail) := by
  rcases hx with rfl | ⟨e, sg, ds, rfl, he, hsg, hds⟩
  · simp
  · obtain ⟨hne, hdig⟩ := hds
    match ds, hne with
    | d :: ds2, _ =>
      have hd : isDigit d = true := hdig d (by simp)
      have hD : digCount (d :: (ds2 ++ tail)) = ds2.length + 1 + digCount tail := by
        have h2 : ∀ x ∈ ds2, isDigit x = true := fun x hx => hdig x (by simp [hx])
        simp only [digCount, hd, if_true, digCount_append_digits ds2 tail h2]
        omega
      rcases hsg with rfl | rfl | rfl
      · simp only [List.nil_append, List.cons_append]
        rw [expLen_eq_nosign e d (ds2 ++ tail) he (digit_ne_signs hd)
          (by rw [hD]; omega)]
        rw [hD]
        simp only [List.length_cons]
        omega
      · simp only [List.cons_append, List.nil_append]
        rw [expLen_eq_sign e '+' (d :: (ds2 ++ tail)) he (Or.inl rfl)
          (by rw [hD]; omega)]
        rw [hD]
        simp only [List.length_cons]
        omega
      · simp only [List.cons_append, List.nil_append]
        rw [expLen_eq_sign e '-' (d :: (ds2 ++ tail)) he (Or.inr rfl)
          (by rw [hD]; omega)]
        rw [hD]
        simp only [List.length_cons]
        omega

theorem specIntPart_digits {ds : List Char} (h : specIntPart ds) :
    ∀ x ∈ ds, isDigit x = true := by
  rcases h with rfl | ⟨c, ds2, rfl, hnz, hdig⟩
  · intro x hx
    simp only [List.mem_singleton] at hx
    subst hx
    decide
  · intro x hx
    rcases List.mem_cons.mp hx with rfl | hx2
    · exact digit_of_nz hnz
    · exact hdig x hx2

theorem intPartLen_spec {ds : List Char} (h : specIntPart ds) :
    intPartLen ds = some ds.length := by
  rcases h with rfl | ⟨c, ds2, rfl, hnz, hdig⟩
  · rfl
  · have h0 : c ≠ '0' := by
      intro e; rw [e] at hnz; exact absurd hnz (by decide)
    simp only [intPartLen, if_neg h0, if_pos hnz, digCount_all ds2 hdig,
      List.length_cons, Option.some.injEq]
    omega

/-- Unfolding `matchNumAt` once the integer part is known. -/
theorem matchNumAt_eq (c : Char) (rest : List Char) (hneg : c ≠ '-') {i : Nat}
    (hi : intPartLen (c :: rest) = some i) :
    matchNumAt (c :: rest) = some (i + fracLen ((c :: rest).drop i) +
      expLen (((c :: rest).drop i).drop (fracLen ((c :: rest).drop i)))) := by
  simp only [matchNumAt, if_neg hneg, hi, Option.map_some']

/-- The integer-part decomposition the greedy matcher induces. -/
theorem intPart_decomp (c : Char) (rest : List Char) (hd : isDigit c = true) :
    ∃ ip t, c :: rest = ip ++ t ∧ specIntPart ip ∧
      intPartLen (c :: rest) = some ip.length := by
  by_cases h0 : c = '0'
  · subst h0
    exact ⟨['0'], rest, rfl, Or.inl rfl, rfl⟩
  · have hnz := nz_of_digit_ne_zero hd h0
    refine ⟨c :: rest.take (digCount rest), rest.drop (digCount rest), ?_, ?_, ?_⟩
    · rw [List.cons_append, List.take_append_drop]
    · exact Or.inr ⟨c, _, rfl, hnz, take_digCount_digits rest⟩
    · simp only [intPartLen, if_neg h0, if_pos hnz, List.length_cons,
        List.length_take, Option.some.injEq]
      rw [min_eq_left (digCount_le rest)]
      omega

theorem fracLen_dot (r : List Char) (hz : ¬digCount r = 0) :
    fracLen ('.' :: r) = 1 + digCount r := by
  show (if '.' = '.' then if digCount r = 0 then 0 else 1 + digCount r else 0) = _
  rw [if_pos rfl, if_neg hz]

theorem frac_decomp (l : List Char) :
    ∃ fr t, l = fr ++ t ∧ specFrac fr ∧ fr.length = fracLen l := by
  match l with
  | [] => exact ⟨[], [], rfl, Or.inl rfl, rfl⟩
  | c :: r =>
    by_cases hc : c = '.'
    · subst hc
      by_cases hz : digCount r = 0
      · refine ⟨[], '.' :: r, rfl, Or.inl rfl, ?_⟩
        simp [fracLen, hz]
      · refine ⟨'.' :: r.take (digCount r), r.drop (digCount r), ?_, ?_, ?_⟩
        · rw [List.cons_append, List.take_append_drop]
        · refine Or.inr ⟨_, rfl, ?_, take_digCount_digits r⟩
          intro he
          have hlt : (r.take (digCount r)).length = 0 := by rw [he]; rfl
          rw [List.length_take, min_eq_left (digCount_le r)] at hlt
          exact hz hlt
        · rw [fracLen_dot r hz]
          simp only [List.length_cons, List.length_take]
          rw [min_eq_left (digCount_le r)]
          omega
    · exact ⟨[], c :: r, rfl, Or.inl rfl, by simp [fracLen, hc]⟩

theorem exp_decomp (l : List Char) :
    ∃ ex t, l = ex ++ t ∧ specExp ex ∧ ex.length = expLen l := by
  match l with
  | [] => exact ⟨[], [], rfl, Or.inl rfl, rfl⟩
  | c :: r =>
    by_cases he : c = 'e' ∨ c = 'E'
    · match r with
      | [] =>
        refine ⟨[], [c], rfl, Or.inl rfl, ?_⟩
        simp [expLen, he]
      | x :: r2 =>
        by_cases hx : x = '+' ∨ x = '-'
        · by_cases hz : digCount r2 = 0
          · refine ⟨[], c :: x :: r2, rfl, Or.inl rfl, ?_⟩
            simp [expLen, he, hx, hz]
          · refine ⟨c :: x :: r2.take (digCount r2), r2.drop (digCount r2),
              ?_, ?_, ?_⟩
            · rw [List.cons_append, List.cons_append, List.take_append_drop]
            · refine Or.inr ⟨c, [x], r2.take (digCount r2), rfl, he, ?_, ?_,
                take_digCount_digits r2⟩
              · rcases hx with rfl | rfl
                · exact Or.inr (Or.inl rfl)
                · exact Or.inr (Or.inr rfl)
              · intro h0
                have hlt : (r2.take (digCount r2)).length = 0 := by rw [h0]; rfl
                rw [List.length_take, min_eq_left (digCount_le r2)] at hlt
                exact hz hlt
            · rw [expLen_eq_sign c x r2 he hx (by omega)]
              simp only [List.length_cons, List.length_take]
              rw [min_eq_left (digCount_le r2)]
              omega
        · by_cases hz : digCount (x :: r2) = 0
          · exact ⟨[], c :: x :: r2, rfl, Or.inl rfl,
              by simp [expLen, he, hx, hz]⟩
          · refine ⟨c :: (x :: r2).take (digCount (x :: r2)),
              (x :: r2).drop (digCount (x :: r2)), ?_, ?_, ?_⟩
            · rw [List.cons_append, List.take_append_drop]
            · refine Or.inr ⟨c, [], (x :: r2).take (digCount (x :: r2)), ?_,
                he, Or.inl rfl, ?_, take_digCount_digits (x :: r2)⟩
              · rw [List.nil_append]
              · intro h0
                have hlt : ((x :: r2).take (digCount (x :: r2))).length = 0 := by
                  rw [h0]; rfl
                rw [List.length_take, min_eq_left (digCount_le (x :: r2))] at hlt
                exact hz hlt
            · rw [expLen_eq_nosign c x r2 he hx (by omega)]
              simp only [List.length_cons, List.length_take]
              have hle2 := digCount_le (x :: r2)
              simp only [List.length_cons] at hle2
              rw [min_eq_left hle2]
              omega
    · exact ⟨[], c :: r, rfl, Or.inl rfl, by simp [expLen, he]⟩

/-- When a spec fraction group or exponent group starts here, no digit does. -/
theorem fracExp_digCount0 (fr ex tail : List Char) (hfr : specFrac fr)
    (hex : specExp ex) (hne : fr ≠ [] ∨ ex ≠ []) :
    digCount (fr ++ (ex ++ tail)) = 0 := by
  rcases hfr with rfl | ⟨ds2, rfl, _⟩
  · rcases hex with rfl | ⟨e, sg, ds, rfl, he, _, _⟩
    · simp at hne
    · simp only [List.nil_append, List.cons_append, digCount]
      rw [if_neg (by rcases he with rfl | rfl <;> decide)]
  · simp only [List.cons_append, digCount]
    rw [if_neg (by decide : ¬(isDigit '.' = true))]

/-- The spec's fraction and exponent groups together never beat the greedy
fraction-then-exponent match at the same position. -/
theorem fracExp_le (fr ex tail : List Char) (hfr : specFrac fr)
    (hex : specExp ex) :
    fr.length + ex.length ≤ fracLen (fr ++ (ex ++ tail)) +
      expLen ((fr ++ (ex ++ tail)).drop (fracLen (fr ++ (ex ++ tail)))) := by
  rcases hfr with rfl | ⟨ds2, rfl, hds2⟩
  · rcases hex with rfl | ⟨e, sg, ds, rfl, he, hsg, hds⟩
    · simp
    · simp only [List.nil_append, List.length_nil, Nat.zero_add]
      have hfrac0 : fracLen ((e :: (sg ++ ds)) ++ tail) = 0 := by
        rw [List.cons_append]
        simp only [fracLen]
        rw [if_neg (by rcases he with rfl | rfl <;> decide)]
      rw [hfrac0, List.drop_zero, Nat.zero_add]
      exact specExp_le _ tail (Or.inr ⟨e, sg, ds, rfl, he, hsg, hds⟩)
  · obtain ⟨hne2, hdig2⟩ := hds2
    match ds2, hne2 with
    | d2 :: ds3, _ =>
      have hd2 : isDigit d2 = true := hdig2 d2 (by simp)
      rcases hex with rfl | ⟨e, sg, ds, rfl, he, hsg, hds⟩
      · -- no exponent group; the greedy fraction alone is at least as long
        have hdc : digCount ((d2 :: ds3) ++ ([] ++ tail)) =
            ds3.length + 1 + digCount tail := by
          rw [List.nil_append, digCount_append_digits (d2 :: ds3) tail hdig2,
            List.length_cons]
        have hfl : fracLen (('.' :: (d2 :: ds3)) ++ ([] ++ tail)) =
            1 + digCount ((d2 :: ds3) ++ ([] ++ tail)) := by
          rw [List.cons_append]
          exact fracLen_dot _ (by rw [hdc]; omega)
        rw [hfl, hdc]
        simp only [List.length_cons, List.length_nil]
        omega
      · -- exponent group present: the greedy fraction stops exactly at it
        have hT0 : digCount ((e :: (sg ++ ds)) ++ tail) = 0 := by
          rw [List.cons_append]
          simp only [digCount]
          rw [if_neg (by rcases he with rfl | rfl <;> decide)]
        have hdc : digCount ((d2 :: ds3) ++ ((e :: (sg ++ ds)) ++ tail)) =
            ds3.length + 1 := by
          rw [digCount_append_digits (d2 :: ds3) _ hdig2, hT0, List.length_cons]
        have hfl : fracLen (('.' :: (d2 :: ds3)) ++ ((e :: (sg ++ ds)) ++ tail)) =
            ds3.length + 2 := by
          rw [List.cons_append, fracLen_dot _ (by rw [hdc]; omega), hdc]
          omega
        rw [hfl]
        have hdrop : (('.' :: (d2 :: ds3)) ++ ((e :: (sg ++ ds)) ++ tail)).drop
            (ds3.length + 2) = (e :: (sg ++ ds)) ++ tail := by
          have hlen : ds3.length + 2 = ('.' :: (d2 :: ds3)).length := by
            simp only [List.length_cons]
          rw [hlen, List.drop_left]
        rw [hdrop]
        have hel := specExp_le (e :: (sg ++ ds)) tail
          (Or.inr ⟨e, sg, ds, rfl, he, hsg, hds⟩)
        simp only [List.length_cons] at hel ⊢
        omega

/-- The greedy match at a digit is itself a lexeme of the spec grammar. -/
theorem matchNum_digit_exists (c : Char) (rest : List Char)
    (hd : isDigit c = true) :
    ∃ n, matchNumAt (c :: rest) = some n ∧ n ≤ (c :: rest).length ∧
      specNumLexeme ((c :: rest).take n) := by
  obtain ⟨ip, t1, he1, hip, hlen1⟩ := intPart_decomp c rest hd
  obtain ⟨fr, t2, he2, hfr, hlen2⟩ := frac_decomp t1
  obtain ⟨ex, t3, he3, hex, hlen3⟩ := exp_decomp t2
  have hdrop1 : (c :: rest).drop ip.length = t1 := by rw [he1, List.drop_left]
  have hdrop2 : t1.drop fr.length = t2 := by rw [he2, List.drop_left]
  refine ⟨ip.length + fr.length + ex.length, ?_, ?_, ?_⟩
  · rw [matchNumAt_eq c rest (digit_ne_minus hd) hlen1, hdrop1, ← hlen2,
      hdrop2, ← hlen3]
  · have l1 : (c :: rest).length = ip.length + t1.length := by
      rw [he1, List.length_append]
    have l2 : t1.length = fr.length + t2.length := by
      rw [he2, List.length_append]
    have l3 : t2.length = ex.length + t3.length := by
      rw [he3, List.length_append]
    omega
  · refine ⟨[], ip, fr, ex, ?_, Or.inl rfl, hip, hfr, hex⟩
    rw [List.nil_append]
    have heq : c :: rest = (ip ++ (fr ++ ex)) ++ t3 := by
      rw [he1, he2, he3]
      simp [List.append_assoc]
    have hn : ip.length + fr.length + ex.length = (ip ++ (fr ++ ex)).length := by
      simp only [List.length_append]
      omega
    rw [heq, hn, List.take_left]

/-- No lexeme of the spec grammar starting at a digit is longer than the
greedy match there. -/
theorem matchNum_digit_max (c : Char) (rest : List Char) (hd : isDigit c = true)
    {n : Nat} (hm : matchNumAt (c :: rest) = some n) :
    ∀ m, m ≤ (c :: rest).length → specNumLexeme ((c :: rest).take m) → m ≤ n := by
  intro m hmle hspec
  obtain ⟨sg, ip, fr, ex, hdec, hsg, hip, hfr, hex⟩ := hspec
  match m, hmle with
  | 0, _ =>
    exfalso
    rw [List.take_zero] at hdec
    rcases List.append_eq_nil.mp hdec.symm with ⟨_, hrest⟩
    rcases List.append_eq_nil.mp hrest with ⟨hi0, _⟩
    exact specIntPart_ne_nil hip hi0
  | m' + 1, hmle2 =>
    rw [List.take_succ_cons] at hdec
    have hm2 : m' ≤ rest.length := by
      simp only [List.length_cons] at hmle2
      omega
    have hsg0 : sg = [] := by
      rcases hsg with h | h
      · exact h
      · exfalso
        subst h
        rw [List.singleton_append] at hdec
        injection hdec with h1 _
        exact digit_ne_minus hd h1
    subst hsg0
    rw [List.nil_append] at hdec
    have hmlen : m' + 1 = ip.length + fr.length + ex.length := by
      have hcg := congrArg List.length hdec
      simp only [List.length_cons, List.length_append, List.length_take,
        min_eq_left hm2] at hcg
      omega
    by_cases h0 : c = '0'
    · subst h0
      have hip0 : ip = ['0'] := by
        rcases hip with h | ⟨c2, ds, hds, hnz, _⟩
        · exact h
        · exfalso
          subst hds
          rw [List.cons_append] at hdec
          injection hdec with h1 _
          rw [← h1] at hnz
          exact absurd hnz (by decide)
      subst hip0
      rw [List.singleton_append] at hdec
      injection hdec with _ hdec2
      have hY : rest = fr ++ (ex ++ rest.drop m') := by
        conv_lhs => rw [← List.take_append_drop m' rest]
        rw [hdec2, List.append_assoc]
      have hi : intPartLen ('0' :: rest) = some 1 := rfl
      rw [matchNumAt_eq '0' rest (by decide) hi] at hm
      injection hm with hn
      rw [show (('0' : Char) :: rest).drop 1 = rest from rfl] at hn
      have hfe := fracExp_le fr ex (rest.drop m') hfr hex
      rw [← hY] at hfe
      simp only [List.length_cons, List.length_nil] at hmlen
      omega
    · have hnz := nz_of_digit_ne_zero hd h0
      rcases hip with h | ⟨c2, ds, hds, hnz2, hdig⟩
      · exfalso
        subst h
        rw [List.singleton_append] at hdec
        injection hdec with h1 _
        exact h0 h1
      · subst hds
        rw [List.cons_append] at hdec
        injection hdec with h1 hdec2
        subst h1
        have hY : rest = ds ++ (fr ++ (ex ++ rest.drop m')) := by
          conv_lhs => rw [← List.take_append_drop m' rest]
          rw [hdec2]
          simp [List.append_assoc]
        have hi : intPartLen (c :: rest) = some (1 + digCount rest) := by
          simp only [intPartLen, if_neg h0, if_pos hnz]
        rw [matchNumAt_eq c rest (digit_ne_minus hd) hi] at hm
        injection hm with hn
        have hdigr : digCount rest =
            ds.length + digCount (fr ++ (ex ++ rest.drop m')) := by
          conv_lhs => rw [hY]
          exact digCount_append_digits ds _ hdig
        by_cases hboth : fr = [] ∧ ex = []
        · obtain ⟨rfl, rfl⟩ := hboth
          simp only [List.length_cons, List.length_nil] at hmlen
          omega
        · have hW : digCount (fr ++ (ex ++ rest.drop m')) = 0 :=
            fracExp_digCount0 fr ex _ hfr hex (not_and_or.mp hboth)
          have hieq : 1 + digCount rest = ds.length + 1 := by omega
          have hdropi : (c :: rest).drop (1 + digCount rest) =
              fr ++ (ex ++ rest.drop m') := by
            rw [hieq, List.drop_succ_cons]
            conv_lhs => rw [hY]
            rw [List.drop_left]
          rw [hdropi] at hn
          have hfe := fracExp_le fr ex (rest.drop m') hfr hex
          simp only [List.length_cons] at hmlen
          omega

/-- Unfolding `numBranch` when the search result is known. -/
theorem numBranch_some {s : List Char} {pn : Nat × Nat}
    (hs : searchNum s = some pn) :
    numBranch s =
      (match fromCharsInt ((s.drop pn.1).take pn.2) with
       | some v => some (.int v, ((s.drop pn.1).take pn.2).length)
       | none =>
         match fromCharsDouble ((s.drop pn.1).take pn.2) with
         | some q => some (.double q, ((s.drop pn.1).take pn.2).length)
         | none => none) := by
  simp only [numBranch]
  rw [hs]

/-- C3 counterexample: the first significant byte `+` dispatches to the
Number Matcher, but the grammar has no match anchored there (its optional
sign is `-` only), so by the claim the branch should fail with `(Null, 0)`.
Instead `regex_search` finds the lexeme `5` one byte later and the parse
returns `(Int 5, 1)` — a lexeme beginning later in the input was matched. -/
theorem c3_cex : parse ['+', '5'] = (.int 5, 1) := rfl

/-- C3 (amended): the matcher runs an unanchored search for the leftmost
regex match over the whole remainder.  When the first significant byte is a
digit the match IS anchored at the current position and the extracted lexeme
is the longest lexeme of the §4.3 grammar there (`specNumLexeme`); whenever
the branch succeeds, consumed equals exactly that lexeme's length, and the
whole parse is the number branch's result (or `(Null, 0)` on fall-through).
For a first byte `+`, or `-` not followed by a digit, the match may instead
begin later in the input (see the counterexample). -/
theorem c3_number_matcher (c : Char) (rest : List Char) (hd : isDigit c = true) :
    ∃ n, matchNumAt (c :: rest) = some n ∧ searchNum (c :: rest) = some (0, n) ∧
      specNumLexeme ((c :: rest).take n) ∧
      (∀ m, m ≤ (c :: rest).length → specNumLexeme ((c :: rest).take m) → m ≤ n) ∧
      (∀ r, numBranch (c :: rest) = some r → r.2 = n) ∧
      parse (c :: rest) = (numBranch (c :: rest)).getD (JSON.null, 0) := by
  obtain ⟨n, hm, hle, hspec⟩ := matchNum_digit_exists c rest hd
  have hs : searchNum (c :: rest) = some (0, n) := by simp [searchNum, hm]
  refine ⟨n, hm, hs, hspec, matchNum_digit_max c rest hd hm, ?_, ?_⟩
  · intro r hr
    rw [numBranch_some hs] at hr
    simp only [List.drop_zero] at hr
    have hstr : ((c :: rest).take n).length = n := by
      rw [List.length_take]
      exact min_eq_left hle
    split at hr
    · injection hr with hr2
      rw [← hr2, hstr]
    · split at hr
      · injection hr with hr2
        rw [← hr2, hstr]
      · exact absurd hr (by simp)
  · rw [parse_eq_parseF]
    exact parseF_num _ c rest (Or.inl hd)

/-- C3 witness. -/
theorem c3_witness :
    ∃ n, matchNumAt ['1', '2', '3'] = some n ∧
      searchNum ['1', '2', '3'] = some (0, n) ∧
      specNumLexeme (List.take n ['1', '2', '3']) ∧
      (∀ m, m ≤ (['1', '2', '3'] : List Char).length →
        specNumLexeme (List.take m ['1', '2', '3']) → m ≤ n) ∧
      (∀ r, numBranch ['1', '2', '3'] = some r → r.2 = n) ∧
      parse ['1', '2', '3'] = (numBranch ['1', '2', '3']).getD (JSON.null, 0) :=
  c3_number_matcher '1' ['2', '3'] (by decide)

/-! ### C4: which integer lexemes produce `Int` -/

/-- C4 counterexample: `2147483648 = 2^31` fits a 64-bit signed integer, so
by the claim the parse must yield `Int`.  The variant's integer type is the
C++ `int` (32 bits), `from_chars<int>` reports out-of-range, and the parse
yields `Double` instead. -/
theorem c4_cex :
    parse ['2', '1', '4', '7', '4', '8', '3', '6', '4', '8'] =
      (.double 2147483648, 10) := by
  have hq : (((2147483648 : ℚ) + 0) * 10 ^ (0 : ℤ)) = 2147483648 := by norm_num
  have h1 : numVal ['2', '1', '4', '7', '4', '8', '3', '6', '4', '8'] =
      some (((2147483648 : ℚ) + 0) * 10 ^ (0 : ℤ)) := rfl
  have habs : |(2147483648 : ℚ)| = 2147483648 := abs_of_pos (by norm_num)
  have hcond : |(2147483648 : ℚ)| < (2 : ℚ) ^ (1024 : ℕ) ∧
      ((2 : ℚ) ^ (1075 : ℕ))⁻¹ ≤ |(2147483648 : ℚ)| := by
    rw [habs]
    constructor <;> norm_num
  have h3 : fromCharsDouble ['2', '1', '4', '7', '4', '8', '3', '6', '4', '8'] =
      some 2147483648 := by
    simp only [fromCharsDouble, h1, hq]
    rw [if_neg (by decide : ¬('2' : Char) = '-')]
    show (if (2147483648 : ℚ) = 0 then some 0
      else if |(2147483648 : ℚ)| < (2 : ℚ) ^ (1024 : ℕ) ∧
          ((2 : ℚ) ^ (1075 : ℕ))⁻¹ ≤ |(2147483648 : ℚ)| then some (2147483648 : ℚ)
      else none) = some 2147483648
    rw [if_neg (by norm_num : ¬(2147483648 : ℚ) = 0), if_pos hcond]
  have hs : searchNum ['2', '1', '4', '7', '4', '8', '3', '6', '4', '8'] =
      some (0, 10) := rfl
  have hfci : fromCharsInt ['2', '1', '4', '7', '4', '8', '3', '6', '4', '8'] =
      none := rfl
  have hstr :
      (((['2', '1', '4', '7', '4', '8', '3', '6', '4', '8'] : List Char).drop
          ((0, 10) : Nat × Nat).1).take ((0, 10) : Nat × Nat).2) =
        ['2', '1', '4', '7', '4', '8', '3', '6', '4', '8'] := rfl
  have hnb : numBranch ['2', '1', '4', '7', '4', '8', '3', '6', '4', '8'] =
      some (.double 2147483648, 10) := by
    rw [numBranch_some hs, hstr, hfci, h3]
    rfl
  rw [parse_eq_parseF,
    parseF_num _ '2' ['1', '4', '7', '4', '8', '3', '6', '4', '8']
      (Or.inl (by decide)),
    hnb]
  rfl

/-- The greedy matcher consumes a bare integer lexeme in full, with and
without the leading minus sign. -/
theorem matchNumAt_intLexeme (ds : List Char) (hip : specIntPart ds) :
    matchNumAt ds = some ds.length ∧
      matchNumAt ('-' :: ds) = some (1 + ds.length) := by
  have hi := intPartLen_spec hip
  have hd0 : ds ≠ [] := specIntPart_ne_nil hip
  constructor
  · match ds, hd0 with
    | c :: r, _ =>
      have hdc : isDigit c = true := specIntPart_digits hip c (by simp)
      rw [matchNumAt_eq c r (digit_ne_minus hdc) hi, List.drop_length]
      simp [fracLen, expLen]
  · simp only [matchNumAt, if_pos rfl, hi, Option.map_some']
    rw [List.drop_length]
    simp [fracLen, expLen]

/-- C4 (amended): an input that is exactly an integer lexeme (no fraction,
no exponent) parses to `Int` with the exact value and full consumption
precisely when the value fits the C++ `int` — a 32-bit signed integer, not
the 64-bit one the claim states: nonnegative values up to `2^31 - 1`,
negated values down to `-2^31`. -/
theorem c4_int32_lexeme :
    (∀ ds : List Char, specIntPart ds → digsVal 0 ds ≤ 2 ^ 31 - 1 →
      parse ds = (.int (digsVal 0 ds : Int), ds.length)) ∧
    (∀ ds : List Char, specIntPart ds → digsVal 0 ds ≤ 2 ^ 31 →
      parse ('-' :: ds) = (.int (-(digsVal 0 ds : Int)), ds.length + 1)) := by
  constructor
  · intro ds hip hb
    have hd0 : ds ≠ [] := specIntPart_ne_nil hip
    match ds, hd0 with
    | c :: r, _ =>
      have hdc : isDigit c = true := specIntPart_digits hip c (by simp)
      rw [parse_eq_parseF, parseF_num _ c r (Or.inl hdc)]
      have hmn := (matchNumAt_intLexeme (c :: r) hip).1
      have hs : searchNum (c :: r) = some (0, (c :: r).length) := by
        simp [searchNum, hmn]
      rw [numBranch_some hs]
      simp only [List.drop_zero, List.take_length]
      have hfc : fromCharsInt (c :: r) = some (digsVal 0 (c :: r) : Int) := by
        simp only [fromCharsInt]
        rw [if_neg (digit_ne_minus hdc),
          if_pos (List.all_eq_true.mpr (specIntPart_digits hip)),
          if_pos hb]
      rw [hfc]
      rfl
  · intro ds hip hb
    have hd0 : ds ≠ [] := specIntPart_ne_nil hip
    rw [parse_eq_parseF, parseF_num _ '-' ds (Or.inr (Or.inr rfl))]
    have hmn := (matchNumAt_intLexeme ds hip).2
    have hs : searchNum ('-' :: ds) = some (0, 1 + ds.length) := by
      simp [searchNum, hmn]
    rw [numBranch_some hs]
    have hlen : 1 + ds.length = ('-' :: ds).length := by
      simp only [List.length_cons]
      omega
    simp only [List.drop_zero, hlen, List.take_length]
    have hfc : fromCharsInt ('-' :: ds) = some (-(digsVal 0 ds : Int)) := by
      simp only [fromCharsInt]
      rw [if_pos trivial,
        if_pos ⟨hd0, List.all_eq_true.mpr (specIntPart_digits hip)⟩,
        if_pos hb]
    rw [hfc]
    rfl

/-- C4 witness: the spec's own scenario, `123`. -/
theorem c4_witness :
    specIntPart ['1', '2', '3'] ∧ digsVal 0 ['1', '2', '3'] ≤ 2 ^ 31 - 1 ∧
      parse ['1', '2', '3'] = (.int 123, 3) := by
  have hip : specIntPart ['1', '2', '3'] :=
    Or.inr ⟨'1', ['2', '3'], rfl, by decide, by decide⟩
  refine ⟨hip, by decide, ?_⟩
  exact (c4_int32_lexeme.1 ['1', '2', '3'] hip (by decide)).trans rfl

end JSONParser
